import Mathlib

/-!
Verification of the epoll-based C10K client-pool server core
(`src/pool.hpp`, `src/atomic_queue.hpp`, `src/mem.hpp`, `src/client.hpp`)
against its natural-language specification.

The C++ sources are shallowly embedded: each relevant member function is
translated into an executable Lean function over an explicit state record,
with external effects (socket reads, poller registration, thread joins,
socket closes) reified as events in a trace, and the outcomes of kernel
calls (read results, ioctl results, mmap results) supplied as explicit
inputs.  The embedding follows the source line by line; comments cite the
source locations.
-/

namespace Comm

/-! ### Constants

Linux epoll event-mask bits, as used by the `switch` in
`client_pool::process` (src/pool.hpp lines 193-275). -/

def EPOLLIN : Nat := 0x001
def EPOLLPRI : Nat := 0x002
def EPOLLOUT : Nat := 0x004
def EPOLLERR : Nat := 0x008
def EPOLLHUP : Nat := 0x010
def EPOLLRDHUP : Nat := 0x2000

/-- `MAX_READ_SIZE` from src/client.hpp line 9; `client::size` equals it
(line 18), and `handle_epollin` / `handle_epollpri` pass `cl->size` as the
read length. -/
def MAX_READ_SIZE : Nat := 4096

/-! ### The dispatch state machine (`client_pool::process`)

`process` (src/pool.hpp lines 193-275) is a pure `switch` on the event
flags that selects which handlers run.  We embed it as a function from the
flag word to the list of actions it performs, in order.  `Action.unuse`
is the direct recycle in the `EPOLLHUP`/`EPOLLRDHUP` and `default` cases;
`Action.hin` / `Action.hpri` / `Action.hout` are calls of
`handle_epollin` / `handle_epollpri` / `handle_epollout`. -/

inductive Action where
  | unuse : Action
  | hin : Action
  | hpri : Action
  | hout : Action
deriving DecidableEq

/-- Shallow embedding of `client_pool::process` (src/pool.hpp 193-275).
Each `if` arm mirrors one group of `case` labels of the C++ `switch`, in
source order; the final arm is the `default:` branch, which recycles only
when `EPOLLERR` is set. -/
def process (flags : Nat) : List Action :=
  if flags = EPOLLHUP ∨ flags = EPOLLHUP ||| EPOLLOUT
     ∨ flags = EPOLLRDHUP ∨ flags = EPOLLRDHUP ||| EPOLLOUT then
    [Action.unuse]
  else if flags = EPOLLIN ∨ flags = EPOLLIN ||| EPOLLHUP
     ∨ flags = EPOLLIN ||| EPOLLHUP ||| EPOLLOUT
     ∨ flags = EPOLLIN ||| EPOLLRDHUP
     ∨ flags = EPOLLIN ||| EPOLLRDHUP ||| EPOLLOUT then
    [Action.hin]
  else if flags = EPOLLPRI ∨ flags = EPOLLPRI ||| EPOLLHUP
     ∨ flags = EPOLLPRI ||| EPOLLHUP ||| EPOLLOUT
     ∨ flags = EPOLLPRI ||| EPOLLRDHUP
     ∨ flags = EPOLLPRI ||| EPOLLRDHUP ||| EPOLLOUT then
    [Action.hpri]
  else if flags = EPOLLIN ||| EPOLLPRI ∨ flags = EPOLLIN ||| EPOLLPRI ||| EPOLLHUP
     ∨ flags = EPOLLIN ||| EPOLLPRI ||| EPOLLHUP ||| EPOLLOUT
     ∨ flags = EPOLLIN ||| EPOLLPRI ||| EPOLLRDHUP
     ∨ flags = EPOLLIN ||| EPOLLPRI ||| EPOLLRDHUP ||| EPOLLOUT then
    [Action.hpri]
  else if flags = EPOLLOUT then
    [Action.hout]
  else if flags = EPOLLIN ||| EPOLLOUT then
    [Action.hin, Action.hout]
  else if flags = EPOLLPRI ||| EPOLLOUT then
    [Action.hpri, Action.hout]
  else if flags = EPOLLIN ||| EPOLLPRI ||| EPOLLOUT then
    [Action.hpri, Action.hout]
  else if flags &&& EPOLLERR = EPOLLERR then
    [Action.unuse]
  else
    []

/-! ### Handler dispatch and event traces

`client_pool<Tderiv>` is a CRTP base: `handle_epollin` and
`handle_epollout` call the user handler through
`static_cast<Tderiv*>(this)->on_input(...)` (src/pool.hpp lines 313, 282),
which statically dispatches to the derived type's member.
`handle_epollpri` line 340 instead writes the unqualified call
`on_oob(cl->sfd, oobdata)`; in C++, an unqualified non-virtual member call
inside a class template resolves to the enclosing class's own member, so
it invokes `client_pool::on_oob` — the no-op default of lines 109-112 —
regardless of any `on_oob` the derived type defines.  We record the
dispatch target of every handler call with a `Callee` tag. -/

inductive Callee where
  | base : Callee
  | deriv : Callee
deriving DecidableEq

/-- One observable effect of a drain loop or of `stop`. -/
inductive Event where
  | readCall (sfd len : Nat) : Event
  | onInput (c : Callee) (sfd n : Nat) : Event
  | onOob (c : Callee) (sfd b : Nat) : Event
  | onWriteReady (c : Callee) (sfd : Nat) : Event
  | unuseEvt (sfd : Nat) : Event
  | rearmEvt (sfd : Nat) : Event
  | closePoller : Event
  | joinThread (i : Nat) : Event
  | closeFd (fd : Nat) : Event
deriving DecidableEq

/-- Outcome of one `endpoint_read` call, as the drain loops see it:
`err true` is `-1` with `errno == EAGAIN`, `err false` is `-1` with any
other errno, `closed` is a `0` return, and `data n` is a positive return
of `n + 1` bytes (the successor guarantees positivity). -/
inductive ReadRes where
  | err (eagain : Bool) : ReadRes
  | closed : ReadRes
  | data (n : Nat) : ReadRes
deriving DecidableEq

/-- Shallow embedding of `client_pool::handle_epollin`
(src/pool.hpp lines 287-318) over the sequence of results that successive
`endpoint_read(cl->sfd, cl->buff, cl->size)` calls return.  Each loop
iteration consumes one result; `-1`/`0` results exit the loop, positive
results invoke `on_input` through the CRTP cast and continue.  An
exhausted result list ends the trace (a real run always ends on a
`-1` or `0` result). -/
def handle_epollin (sfd : Nat) : List ReadRes → List Event
  | [] => []
  | r :: rest =>
    Event.readCall sfd MAX_READ_SIZE ::
      match r with
      | ReadRes.err true => [Event.rearmEvt sfd]
      | ReadRes.err false => [Event.unuseEvt sfd]
      | ReadRes.closed => [Event.unuseEvt sfd]
      | ReadRes.data n => Event.onInput Callee.deriv sfd (n + 1) :: handle_epollin sfd rest

/-- The readable-path drain exactly as the spec's section 4.4.1 words it:
loop calling `read(sfd, buf, MAX_READ_SIZE)`; `n > 0` calls
`handler.on_input` and continues; `n == 0` recycles and returns;
`n == -1` with WOULD_BLOCK re-arms and returns; other `-1` recycles and
returns.  Written from the spec text, to be compared with the
source-derived `handle_epollin`. -/
def specReadableDrain (sfd : Nat) : List ReadRes → List Event
  | [] => []
  | r :: rest =>
    Event.readCall sfd MAX_READ_SIZE ::
      match r with
      | ReadRes.data n => Event.onInput Callee.deriv sfd (n + 1) :: specReadableDrain sfd rest
      | ReadRes.closed => [Event.unuseEvt sfd]
      | ReadRes.err true => [Event.rearmEvt sfd]
      | ReadRes.err false => [Event.unuseEvt sfd]

/-- Inputs consumed by one iteration of the `handle_epollpri` outer loop:
the `ioctl(SIOCATMARK)` outcome (`none` = `-1`), the `endpoint_read_oob`
outcome (`none` = `-1`, `some b` = the OOB byte; consulted only when the
mark is present), and the ordinary `endpoint_read` outcome. -/
structure PriStep where
  atMark : Option Bool
  oob : Option Nat
  rd : ReadRes
deriving DecidableEq

/-- Shallow embedding of `client_pool::handle_epollpri`
(src/pool.hpp lines 322-376).  Per iteration: on ioctl error, recycle and
break; if the mark is present, read the OOB byte — on success call
`on_oob` (the UNQUALIFIED call of line 340, so `Callee.base`, the no-op
default), on failure recycle and break; then run one readable-drain step
exactly as in `handle_epollin`. -/
def handle_epollpri (sfd : Nat) : List PriStep → List Event
  | [] => []
  | st :: rest =>
    match st.atMark with
    | none => [Event.unuseEvt sfd]
    | some mark =>
      if mark then
        match st.oob with
        | none => [Event.unuseEvt sfd]
        | some b =>
          Event.onOob Callee.base sfd b :: Event.readCall sfd MAX_READ_SIZE ::
            match st.rd with
            | ReadRes.err true => [Event.rearmEvt sfd]
            | ReadRes.err false => [Event.unuseEvt sfd]
            | ReadRes.closed => [Event.unuseEvt sfd]
            | ReadRes.data n =>
              Event.onInput Callee.deriv sfd (n + 1) :: handle_epollpri sfd rest
      else
        Event.readCall sfd MAX_READ_SIZE ::
          match st.rd with
          | ReadRes.err true => [Event.rearmEvt sfd]
          | ReadRes.err false => [Event.unuseEvt sfd]
          | ReadRes.closed => [Event.unuseEvt sfd]
          | ReadRes.data n =>
            Event.onInput Callee.deriv sfd (n + 1) :: handle_epollpri sfd rest

/-! ### Pool bookkeeping state (`client_pool` members)

`use` / `unuse` / `add_client` touch only `clientsize_` (atomic counter)
and `unused_` (the free-list ring of `client*` pointers).  We model the
ring's contents abstractly as the list of slot indices it holds, in FIFO
order (its FIFO behaviour under the single-threaded discipline is proved
separately on the `atomic_queue` model below). -/

structure PoolSt where
  cap : Nat
  size : Nat
  free : List Nat
deriving DecidableEq

/-- Fresh pool after the constructor (src/pool.hpp lines 42-53):
`clientsize_ = 0` and the ring pre-loaded with a pointer to every slab
entry (`data[i] = &mem_[i]` for `i` in `[0, clientcap)`). -/
def PoolSt.init (cap : Nat) : PoolSt :=
  { cap := cap, size := 0, free := List.range cap }

/-- Shallow embedding of `client_pool::use` (src/pool.hpp lines 172-177):
increment `clientsize_`, dequeue one pointer from `unused_` (the ring's
front), placement-construct the client there. -/
def use (s : PoolSt) : PoolSt :=
  { s with size := s.size + 1, free := s.free.tail }

/-- Shallow embedding of `client_pool::unuse` (src/pool.hpp lines
161-168): deregister, close, zero `sfd`, enqueue the pointer back into
`unused_` (the ring's back), decrement `clientsize_`. -/
def unuse (s : PoolSt) (slot : Nat) : PoolSt :=
  { s with free := s.free ++ [slot], size := s.size - 1 }

/-- Shallow embedding of `client_pool::add_client` (src/pool.hpp lines
57-66).  `regOk` is the outcome of the poller registration
`epoll<client_pool>::add(cl)` (epoll.hpp is outside src/; registration
may fail, e.g. `EPOLL_CTL_ADD` refused).  Note the source performs NO
`unuse` when registration fails: it returns `ret == 0` directly. -/
def add_client (s : PoolSt) (regOk : Bool) : PoolSt × Bool :=
  if s.size = s.cap then (s, false)
  else (use s, regOk)

/-- An operation on the pool's bookkeeping state: a completed claim, or a
completed recycle of the slot with the given index. -/
inductive PoolOp where
  | use : PoolOp
  | unuse (slot : Nat) : PoolOp
deriving DecidableEq

def poolStep (s : PoolSt) : PoolOp → PoolSt
  | PoolOp.use => use s
  | PoolOp.unuse sl => unuse s sl

/-- A sequence of operations is valid from `s` when every `use` finds a
free pointer to dequeue and every `unuse` recycles a slot that is
actually in use (`size > 0`). -/
def opsValid (s : PoolSt) : List PoolOp → Bool
  | [] => true
  | PoolOp.use :: rest => !s.free.isEmpty && opsValid (poolStep s PoolOp.use) rest
  | PoolOp.unuse sl :: rest => decide (0 < s.size) && opsValid (poolStep s (PoolOp.unuse sl)) rest

def poolRun (s : PoolSt) (ops : List PoolOp) : PoolSt :=
  ops.foldl poolStep s

/-! ### `client_pool::stop` (src/pool.hpp lines 87-104)

State: `threads` is `threads_.size()` — note `stop` joins the threads but
never clears the vector, so the vector keeps its (joined) `std::thread`
objects; `joined` records whether a previous `stop` already joined them.
`slab` lists `mem_[i].sfd` for each slot `i`.  The close loop of lines
99-103 iterates `i` over `[0, clientcap_)` but reads `mem_->sfd`, i.e.
`mem_[0].sfd`, in every iteration — it never indexes by `i`. -/

structure StopSt where
  threads : Nat
  joined : Bool
  slab : List Nat
deriving DecidableEq

/-- Shallow embedding of `client_pool::stop`.  Returns the new state and
the trace of effects: nothing when `threads_.empty()`; otherwise close
the poller, join `threads_[0..threads)`, then run the close loop, which
tests and closes `mem_->sfd` (slot 0's descriptor) once per slot index. -/
def stop (s : StopSt) : StopSt × List Event :=
  if s.threads = 0 then (s, [])
  else
    ({ s with joined := true },
      Event.closePoller ::
        (List.range s.threads).map Event.joinThread ++
        (List.range s.slab.length).filterMap (fun _ =>
          match s.slab.headD 0 with
          | 0 => none
          | fd => some (Event.closeFd fd)))

/-- The descriptors `stop` closes in its close loop. -/
def stopClosedFds (s : StopSt) : List Nat :=
  (stop s).2.filterMap (fun e =>
    match e with
    | Event.closeFd fd => some fd
    | _ => none)

/-! ### `detail::gen_memmap` (src/mem.hpp lines 20-50)

The kernel-call outcomes are supplied as booleans: `memfdOk` for
`syscall(SYS_memfd_create, ...)`, `ftruncateOk` for `ftruncate`,
`reserveOk` for the first `mmap` (the `PROT_NONE` reservation of
`2 * size` bytes), `map1Ok` / `map2Ok` for the two `MAP_FIXED` mappings
of the file over the two halves.  The source checks ONLY the first two:
the three `mmap` return values are never compared with `MAP_FAILED`. -/

structure MmapEnv where
  memfdOk : Bool
  ftruncateOk : Bool
  reserveOk : Bool
  map1Ok : Bool
  map2Ok : Bool
deriving DecidableEq

/-- The single error the source can raise here:
`throw std::runtime_error("memory allocation error")`. -/
inductive MemErr where
  | allocError : MemErr
deriving DecidableEq

/-- Shallow embedding of `detail::gen_memmap` (src/mem.hpp 20-50).
Returns `Except.error` when the source throws, else `Except.ok usable`
where `usable` says whether the returned base pointer actually carries
the double mapping (true only when all three `mmap` calls succeeded).
The source throws on `memfd_create` failure (line 35) and on `ftruncate`
failure (line 41), and on nothing else. -/
def gen_memmap (e : MmapEnv) : Except MemErr Bool :=
  if !e.memfdOk then Except.error MemErr.allocError
  else if !e.ftruncateOk then Except.error MemErr.allocError
  else Except.ok (e.reserveOk && e.map1Ok && e.map2Ok)

/-! ### `atomic_queue` (src/atomic_queue.hpp), single-threaded semantics

State: `cap` (`cap_`), the counters `head` (`head_`) and `tail`
(`tail_`), and the backing store `buff` as a total function from index to
value (elements are modelled as `Nat`, standing for the `client*`
pointers the pool stores).  Each operation is the sequential execution of
the source's instruction sequence by a single thread; the atomic RMWs
become plain reads/writes of the state.  Beyond the new state, each
operation reports the buffer index it accessed and a `QStatus` describing
how its rollover section resolved, so the theorems can speak about the
spin loop and the compare-exchange. -/

structure RingSt where
  cap : Nat
  head : Nat
  tail : Nat
  buff : Nat → Nat

def bupd (f : Nat → Nat) (i v : Nat) : Nat → Nat :=
  fun j => if j = i then v else f j

/-- How the rollover section of one `enqueue`/`dequeue` resolved:
`normal` — the incremented index stayed below `cap_`, no rollover code
ran; `rolled` — the rollover ran, the spin loop exited at once and the
compare-exchange succeeded, subtracting `cap_`; `wouldSpin` — the spin
loop's condition held and (with no other thread to change the counter)
would spin forever; `casFailed` — the compare-exchange failed and the
counter was left unreduced. -/
inductive QStatus where
  | normal : QStatus
  | rolled : QStatus
  | wouldSpin : QStatus
  | casFailed : QStatus
deriving DecidableEq

/-- Shallow embedding of `atomic_queue::enqueue` (src/atomic_queue.hpp
lines 64-79) executed by a single thread:
`int t = tail_.fetch_add(1); buff_[t++] = data;` writes at the old tail
`t0` and leaves `t = t0 + 1`; if `cap_ <= t`, spin `while (tail_.load() >
t)`, then `tail_.compare_exchange_strong(t, t - cap_)`.  The spin and CAS
tests compare the current counter with `t`; a lone thread sees its own
increment, `tail = t`. -/
def enqueue (s : RingSt) (x : Nat) : RingSt × QStatus × Nat :=
  let t0 := s.tail
  let s1 : RingSt := { s with tail := s.tail + 1, buff := bupd s.buff t0 x }
  let t := t0 + 1
  if s.cap ≤ t then
    if t < s1.tail then (s1, QStatus.wouldSpin, t0)
    else if s1.tail = t then ({ s1 with tail := t - s.cap }, QStatus.rolled, t0)
    else (s1, QStatus.casFailed, t0)
  else (s1, QStatus.normal, t0)

/-- Shallow embedding of `atomic_queue::dequeue` (src/atomic_queue.hpp
lines 83-100) executed by a single thread: `int h = head_.fetch_add(1);
const T data = buff_[h++];` reads at the old head `h0`; if `cap_ <= h`,
spin `while (head_.load() > h)`, then
`head_.compare_exchange_strong(h, h - cap_)`; returns `data`. -/
def dequeue (s : RingSt) : RingSt × QStatus × Nat × Nat :=
  let h0 := s.head
  let v := s.buff h0
  let s1 : RingSt := { s with head := s.head + 1 }
  let h := h0 + 1
  if s.cap ≤ h then
    if h < s1.head then (s1, QStatus.wouldSpin, h0, v)
    else if s1.head = h then ({ s1 with head := h - s.cap }, QStatus.rolled, h0, v)
    else (s1, QStatus.casFailed, h0, v)
  else (s1, QStatus.normal, h0, v)

/-- Fresh ring after `atomic_queue::atomic_queue(capHint)`
(src/atomic_queue.hpp lines 32-39): `head_ = tail_ = 0` over a buffer of
capacity `cap` (already rounded by `gen_memmap`); the initial contents of
the mapping are all-zero. -/
def RingSt.init (cap : Nat) : RingSt :=
  { cap := cap, head := 0, tail := 0, buff := fun _ => 0 }

inductive ROp where
  | enq (x : Nat) : ROp
  | deq : ROp
deriving DecidableEq

/-- The claim's precondition on a single-threaded run: each enqueue
happens with fewer than `cap` live elements, each dequeue with at least
one.  `live` is the running live-element count. -/
def rvalid (cap : Nat) : Nat → List ROp → Bool
  | _, [] => true
  | live, ROp.enq _ :: rest => decide (live < cap) && rvalid cap (live + 1) rest
  | live, ROp.deq :: rest => decide (0 < live) && rvalid cap (live - 1) rest

/-- Accumulated observations of a single-threaded run: final state, the
dequeued values in order, every `QStatus` reported, every buffer index
accessed, and the `(head, tail)` pair after each completed operation. -/
structure RunRes where
  st : RingSt
  outs : List Nat
  stats : List QStatus
  idxs : List Nat
  counters : List (Nat × Nat)

/-- Runs a list of operations from `s`, single-threaded, collecting
observations. -/
def ringRun (s : RingSt) : List ROp → RunRes
  | [] => { st := s, outs := [], stats := [], idxs := [], counters := [] }
  | ROp.enq x :: rest =>
    let r := enqueue s x
    let acc := ringRun r.1 rest
    { acc with stats := r.2.1 :: acc.stats, idxs := r.2.2 :: acc.idxs,
               counters := (r.1.head, r.1.tail) :: acc.counters }
  | ROp.deq :: rest =>
    let r := dequeue s
    let acc := ringRun r.1 rest
    { acc with outs := r.2.2.2 :: acc.outs, stats := r.2.1 :: acc.stats,
               idxs := r.2.2.1 :: acc.idxs,
               counters := (r.1.head, r.1.tail) :: acc.counters }

/-- Reference FIFO queue on a plain list: enqueue appends at the back,
dequeue takes the front.  Returns the final queue and the dequeued
values in order. -/
def absRun (q : List Nat) : List ROp → List Nat × List Nat
  | [] => (q, [])
  | ROp.enq x :: rest => absRun (q ++ [x]) rest
  | ROp.deq :: rest =>
    let r := absRun q.tail rest
    (r.1, q.headD 0 :: r.2)

/-- Coupling invariant between the ring state and the reference queue it
represents: both counters below `cap`, the queue no longer than `cap`,
`tail` is `head + length` reduced mod `cap`, and the live elements sit at
`buff[(head + i) mod cap]` in queue order. -/
def RInv (s : RingSt) (q : List Nat) : Prop :=
  0 < s.cap ∧ s.head < s.cap ∧ s.tail < s.cap ∧ q.length ≤ s.cap ∧
    s.tail = (s.head + q.length) % s.cap ∧
    ∀ i, i < q.length → s.buff ((s.head + i) % s.cap) = q.getD i 0

end Comm

/-! ## Theorems for the claims -/

/-- C1: the claim says that after `stop()` every slot with a non-zero
`sfd` has been closed, for every slot index, not only slot 0.  The code
violates it: the close loop of src/pool.hpp lines 99-103 reads
`mem_->sfd` — slot 0's descriptor — in every iteration.  Here a pool
with two slots, slot 0 free (`sfd = 0`) and slot 1 holding descriptor 5,
runs `stop` and closes nothing at all: descriptor 5 leaks. -/
theorem c1_stop_skips_nonzero_slots :
    Comm.stopClosedFds { threads := 1, joined := false, slab := [0, 5] } = [] ∧
      (List.getD [0, 5] 1 0 = 5 ∧ (5 : Nat) ≠ 0) := by
  constructor
  · rfl
  · exact ⟨rfl, by decide⟩

/-- C2: the claim says that in the urgent-path drain, when the mark is
present and the OOB read succeeds, the DERIVED handler's `on_oob` runs.
The code violates it: line 340 of src/pool.hpp makes the unqualified
call `on_oob(cl->sfd, oobdata)`, which statically binds to
`client_pool::on_oob`, the no-op default of lines 109-112 — unlike the
`static_cast<Tderiv*>(this)->on_input(...)` calls.  On a concrete
iteration (mark present, OOB byte 65 read successfully, ordinary read
returning EAGAIN) the trace calls the base no-op and never the derived
`on_oob`. -/
theorem c2_oob_never_reaches_derived_handler :
    Comm.handle_epollpri 3 [{ atMark := some true, oob := some 65, rd := Comm.ReadRes.err true }] =
      [Comm.Event.onOob Comm.Callee.base 3 65,
       Comm.Event.readCall 3 Comm.MAX_READ_SIZE,
       Comm.Event.rearmEvt 3] ∧
      Comm.Event.onOob Comm.Callee.deriv 3 65 ∉
        Comm.handle_epollpri 3 [{ atMark := some true, oob := some 65, rd := Comm.ReadRes.err true }] := by
  constructor
  · rfl
  · decide

/-- C3: the claim says every mask containing `EPOLLRDHUP` or `EPOLLHUP`
and neither `EPOLLIN` nor `EPOLLPRI` recycles the slot, in particular
`EPOLLHUP ||| EPOLLRDHUP`.  The code violates it: the `switch` of
src/pool.hpp lines 196-273 has no case for `EPOLLHUP | EPOLLRDHUP`, so
that mask falls to `default:`, which recycles only when `EPOLLERR` is
set — here it is not, so `process` performs no action at all and the
slot leaks. -/
theorem c3_hup_rdhup_mask_not_recycled :
    Comm.process (Comm.EPOLLHUP ||| Comm.EPOLLRDHUP) = [] ∧
      Comm.Action.unuse ∉ Comm.process (Comm.EPOLLHUP ||| Comm.EPOLLRDHUP) ∧
      (Comm.EPOLLHUP ||| Comm.EPOLLRDHUP) &&& (Comm.EPOLLIN ||| Comm.EPOLLPRI) = 0 := by
  refine ⟨by decide, by decide, by decide⟩

/-- C4, counterexample: the claim says `add_client` returns false if and
only if `size = cap` at entry.  At a pool with `size = 0 < 1 = cap`, a
failed poller registration makes `add_client` return false even though
`size ≠ cap`. -/
theorem c4_reg_failure_returns_false_below_cap :
    (Comm.add_client { cap := 1, size := 0, free := [0] } false).2 = false ∧
      ({ cap := 1, size := 0, free := [0] } : Comm.PoolSt).size ≠
        ({ cap := 1, size := 0, free := [0] } : Comm.PoolSt).cap := by
  refine ⟨rfl, by decide⟩

/-- C4, amended: `add_client` returns false if and only if `size = cap`
at entry OR the poller registration fails; equivalently, it returns true
exactly when `size < cap` at entry and registration succeeds
(src/pool.hpp lines 57-66: the early capacity test, then
`return ret == 0`). -/
theorem c4_add_client_false_iff (s : Comm.PoolSt) (regOk : Bool) :
    (Comm.add_client s regOk).2 = false ↔ (s.size = s.cap ∨ regOk = false) := by
  by_cases h : s.size = s.cap <;>
    simp [Comm.add_client, h]

/-- Witness for the amended C4 at a full pool with a succeeding
registration. -/
theorem c4_add_client_false_iff_witness :
    ((Comm.add_client { cap := 1, size := 1, free := [] } true).2 = false ↔
      (({ cap := 1, size := 1, free := [] } : Comm.PoolSt).size =
        ({ cap := 1, size := 1, free := [] } : Comm.PoolSt).cap ∨ true = false)) :=
  c4_add_client_false_iff { cap := 1, size := 1, free := [] } true

/-- C5: the claim says a failed registration after a claimed slot ends
in `unuse`, leaving the pool state unchanged.  The code violates it:
src/pool.hpp lines 63-65 run `use(sfd)` and then return `ret == 0` with
no `unuse` on the failure path.  At a one-slot pool with a failing
registration, `add_client` returns false yet leaves `size` incremented
to 1 and the free ring emptied: the slot is leaked, not recycled. -/
theorem c5_failed_registration_leaks_slot :
    Comm.add_client { cap := 1, size := 0, free := [0] } false =
      ({ cap := 1, size := 1, free := [] }, false) := by
  rfl

/-- C6: the claim says construction raises `ResourceExhausted` when the
anonymous file, the truncate, or either fixed-address mapping fails.
The code violates the mapping part: src/mem.hpp lines 44-49 never test
the three `mmap` return values.  With `memfd_create` and `ftruncate`
succeeding but the first `MAP_FIXED` mapping failing, `gen_memmap`
raises nothing and returns a base pointer whose buffer is unusable. -/
theorem c6_mmap_failure_raises_nothing :
    Comm.gen_memmap
        { memfdOk := true, ftruncateOk := true, reserveOk := true,
          map1Ok := false, map2Ok := true } = Except.ok false ∧
      ∀ e : Comm.MmapEnv, e.memfdOk = true → e.ftruncateOk = true →
        Comm.gen_memmap e ≠ Except.error Comm.MemErr.allocError := by
  constructor
  · rfl
  · intro e h1 h2
    simp [Comm.gen_memmap, h1, h2]

/-- C7: the claim says a second `stop()` after a completed `stop()` is a
no-op with no effects.  The code violates it: `stop` (src/pool.hpp lines
87-104) joins `threads_` but never clears the vector, so on the second
call `threads_.empty()` is still false and `stop` closes the poller
again and calls `join()` on every already-joined thread (which throws
`std::system_error`).  Starting from two worker threads, the second
`stop` emits a non-empty trace containing a second poller close and
joins of joined threads. -/
theorem c7_second_stop_is_not_noop :
    (Comm.stop (Comm.stop { threads := 2, joined := false, slab := [] }).1).2 ≠ [] ∧
      (Comm.stop { threads := 2, joined := false, slab := [] }).1.joined = true ∧
      Comm.Event.closePoller ∈
        (Comm.stop (Comm.stop { threads := 2, joined := false, slab := [] }).1).2 ∧
      Comm.Event.joinThread 0 ∈
        (Comm.stop (Comm.stop { threads := 2, joined := false, slab := [] }).1).2 := by
  refine ⟨by decide, rfl, by decide, by decide⟩

/-- C8: the readable-path drain `handle_epollin` (src/pool.hpp lines
287-318) follows exactly the algorithm of spec section 4.4.1, for every
sequence of read results: positive reads invoke the derived `on_input`
and continue, a zero read recycles and returns, `-1` with EAGAIN re-arms
and returns, any other `-1` recycles and returns. -/
theorem c8_epollin_matches_spec_drain (sfd : Nat) (rs : List Comm.ReadRes) :
    Comm.handle_epollin sfd rs = Comm.specReadableDrain sfd rs := by
  induction rs with
  | nil => rfl
  | cons r rest ih =>
    cases r with
    | err eagain =>
      cases eagain <;> simp [Comm.handle_epollin, Comm.specReadableDrain]
    | closed => simp [Comm.handle_epollin, Comm.specReadableDrain]
    | data n =>
      simp [Comm.handle_epollin, Comm.specReadableDrain, ih]

/-- Witness for C8 on a concrete read sequence: three bytes of data,
then an orderly close. -/
theorem c8_epollin_matches_spec_drain_witness :
    Comm.handle_epollin 4 [Comm.ReadRes.data 2, Comm.ReadRes.closed] =
      Comm.specReadableDrain 4 [Comm.ReadRes.data 2, Comm.ReadRes.closed] :=
  c8_epollin_matches_spec_drain 4 [Comm.ReadRes.data 2, Comm.ReadRes.closed]

/-- Helper for C9: a valid operation sequence preserves the sum of the
size counter and the free-ring occupancy. -/
theorem poolRun_sum_preserved (ops : List Comm.PoolOp) :
    ∀ s : Comm.PoolSt, Comm.opsValid s ops = true →
      (Comm.poolRun s ops).size + (Comm.poolRun s ops).free.length =
        s.size + s.free.length := by
  induction ops with
  | nil => intro s _; rfl
  | cons op rest ih =>
    intro s hv
    cases op with
    | use =>
      simp only [Comm.opsValid, Bool.and_eq_true, Bool.not_eq_true'] at hv
      have hne : s.free ≠ [] := by
        intro h
        simp [List.isEmpty_iff] at hv
        exact absurd h (by simp [hv.1])
      have hlen : 0 < s.free.length := List.length_pos.mpr hne
      have := ih (Comm.poolStep s Comm.PoolOp.use) hv.2
      simp only [Comm.poolRun, List.foldl_cons] at *
      rw [this]
      simp [Comm.poolStep, Comm.use, List.length_tail]
      omega
    | unuse sl =>
      simp only [Comm.opsValid, Bool.and_eq_true, decide_eq_true_eq] at hv
      have := ih (Comm.poolStep s (Comm.PoolOp.unuse sl)) hv.2
      simp only [Comm.poolRun, List.foldl_cons] at *
      rw [this]
      simp [Comm.poolStep, Comm.unuse]
      omega

/-- C9: starting from a freshly constructed pool of capacity `cap`
(`size = 0`, free ring pre-loaded with `cap` slot pointers), after any
valid sequence of completed `use` and `unuse` operations — i.e. at every
quiescent point — the size counter plus the number of pointers in the
free ring equals `cap`. -/
theorem c9_size_plus_free_eq_cap (cap : Nat) (ops : List Comm.PoolOp)
    (hv : Comm.opsValid (Comm.PoolSt.init cap) ops = true) :
    (Comm.poolRun (Comm.PoolSt.init cap) ops).size +
      (Comm.poolRun (Comm.PoolSt.init cap) ops).free.length = cap := by
  have := poolRun_sum_preserved ops (Comm.PoolSt.init cap) hv
  simpa [Comm.PoolSt.init] using this

/-- Witness for C9 at capacity 2 and the sequence
claim, claim, recycle slot 0, claim. -/
theorem c9_size_plus_free_eq_cap_witness :
    Comm.opsValid (Comm.PoolSt.init 2)
        [Comm.PoolOp.use, Comm.PoolOp.use, Comm.PoolOp.unuse 0, Comm.PoolOp.use] = true ∧
      (Comm.poolRun (Comm.PoolSt.init 2)
          [Comm.PoolOp.use, Comm.PoolOp.use, Comm.PoolOp.unuse 0, Comm.PoolOp.use]).size +
        (Comm.poolRun (Comm.PoolSt.init 2)
          [Comm.PoolOp.use, Comm.PoolOp.use, Comm.PoolOp.unuse 0, Comm.PoolOp.use]).free.length = 2 :=
  ⟨by decide, c9_size_plus_free_eq_cap 2
    [Comm.PoolOp.use, Comm.PoolOp.use, Comm.PoolOp.unuse 0, Comm.PoolOp.use] (by decide)⟩

/-- Helper: incrementing a counter steps its residue, rolling to 0 at the
capacity boundary. -/
theorem succ_mod_split (a c : Nat) (hc : 0 < c) :
    (a + 1) % c = if a % c + 1 = c then 0 else a % c + 1 := by
  rw [← Nat.mod_add_mod]
  by_cases h : a % c + 1 = c
  · simp [h]
  · have hlt : a % c < c := Nat.mod_lt _ hc
    rw [if_neg h, Nat.mod_eq_of_lt (by omega)]

/-- Helper: two offsets below the capacity land on distinct residues. -/
theorem add_mod_ne (c a i j : Nat) (hij : i < j) (hj : j < c) :
    (a + i) % c ≠ (a + j) % c := by
  intro h
  have h1 : a + i ≤ a + j := by omega
  have h2 : c ∣ (a + j) - (a + i) := (Nat.modEq_iff_dvd' h1).mp h
  have h3 : c ≤ (a + j) - (a + i) := Nat.le_of_dvd (by omega) h2
  omega

/-- Helper for C10: one `enqueue` with fewer than `cap` live elements
preserves the coupling invariant against appending to the reference
queue, resolves its rollover section as `normal` or `rolled` (the spin
exits at once, the CAS succeeds), and writes inside `[0, cap)`. -/
theorem enqueue_step (s : Comm.RingSt) (q : List Nat) (x : Nat)
    (hinv : Comm.RInv s q) (hlen : q.length < s.cap) :
    Comm.RInv (Comm.enqueue s x).1 (q ++ [x]) ∧
      ((Comm.enqueue s x).2.1 = Comm.QStatus.normal ∨
        (Comm.enqueue s x).2.1 = Comm.QStatus.rolled) ∧
      (Comm.enqueue s x).2.2 < s.cap ∧
      (Comm.enqueue s x).1.cap = s.cap := by
  obtain ⟨hc, hh, ht, hq, htl, hbuf⟩ := hinv
  have hbuf' : ∀ i, i < q.length + 1 →
      Comm.bupd s.buff s.tail x ((s.head + i) % s.cap) = (q ++ [x]).getD i 0 := by
    intro i hi
    rcases Nat.lt_or_ge i q.length with hilt | hige
    · have hne : (s.head + i) % s.cap ≠ s.tail := by
        rw [htl]
        exact add_mod_ne s.cap s.head i q.length hilt hlen
      rw [Comm.bupd, if_neg hne, List.getD_append _ _ _ _ hilt]
      exact hbuf i hilt
    · have hieq : i = q.length := by omega
      have harg : (s.head + i) % s.cap = s.tail := by rw [hieq]; exact htl.symm
      rw [Comm.bupd, if_pos harg, hieq, List.getD_append_right _ _ _ _ (le_refl _)]
      simp
  have hlen2 : (q ++ [x]).length = q.length + 1 := by simp
  have htl' : (s.head + (q.length + 1)) % s.cap =
      if s.tail + 1 = s.cap then 0 else s.tail + 1 := by
    rw [show s.head + (q.length + 1) = s.head + q.length + 1 from by omega,
        succ_mod_split _ _ hc, ← htl]
  by_cases hroll : s.cap ≤ s.tail + 1
  · have heq : s.tail + 1 = s.cap := by omega
    have hres : Comm.enqueue s x =
        ({ cap := s.cap, head := s.head, tail := s.tail + 1 - s.cap,
           buff := Comm.bupd s.buff s.tail x }, Comm.QStatus.rolled, s.tail) := by
      simp [Comm.enqueue, hroll]
    rw [hres]
    refine ⟨⟨hc, hh, ?_, ?_, ?_, fun i hi => ?_⟩, Or.inr rfl, ht, rfl⟩
    · show s.tail + 1 - s.cap < s.cap
      omega
    · show (q ++ [x]).length ≤ s.cap
      rw [hlen2]; omega
    · show s.tail + 1 - s.cap = (s.head + (q ++ [x]).length) % s.cap
      rw [hlen2, htl', if_pos heq]
      omega
    · exact hbuf' i (by rw [hlen2] at hi; exact hi)
  · have hlt2 : s.tail + 1 < s.cap := by omega
    have hres : Comm.enqueue s x =
        ({ cap := s.cap, head := s.head, tail := s.tail + 1,
           buff := Comm.bupd s.buff s.tail x }, Comm.QStatus.normal, s.tail) := by
      simp [Comm.enqueue, hroll]
    rw [hres]
    refine ⟨⟨hc, hh, hlt2, ?_, ?_, fun i hi => ?_⟩, Or.inl rfl, ht, rfl⟩
    · show (q ++ [x]).length ≤ s.cap
      rw [hlen2]; omega
    · show s.tail + 1 = (s.head + (q ++ [x]).length) % s.cap
      rw [hlen2, htl', if_neg (by omega)]
    · exact hbuf' i (by rw [hlen2] at hi; exact hi)

/-- Helper for C10: one `dequeue` with at least one live element returns
the reference queue's front, preserves the coupling invariant against
the popped queue, resolves its rollover section as `normal` or `rolled`,
and reads inside `[0, cap)`. -/
theorem dequeue_step (s : Comm.RingSt) (q : List Nat) (v : Nat)
    (hinv : Comm.RInv s (v :: q)) :
    Comm.RInv (Comm.dequeue s).1 q ∧
      ((Comm.dequeue s).2.1 = Comm.QStatus.normal ∨
        (Comm.dequeue s).2.1 = Comm.QStatus.rolled) ∧
      (Comm.dequeue s).2.2.1 < s.cap ∧
      (Comm.dequeue s).2.2.2 = v ∧
      (Comm.dequeue s).1.cap = s.cap := by
  obtain ⟨hc, hh, ht, hq, htl, hbuf⟩ := hinv
  simp only [List.length_cons] at hq htl hbuf
  have hval : s.buff s.head = v := by
    have := hbuf 0 (by omega)
    simpa [Nat.mod_eq_of_lt hh] using this
  have htl2 : s.tail = (s.head + 1 + q.length) % s.cap := by
    rw [htl]; congr 1; omega
  have hbuf2 : ∀ i, i < q.length →
      s.buff ((s.head + 1 + i) % s.cap) = q.getD i 0 := by
    intro i hi
    have := hbuf (i + 1) (by omega)
    rw [show s.head + (i + 1) = s.head + 1 + i from by omega] at this
    simpa using this
  by_cases hroll : s.cap ≤ s.head + 1
  · have heq : s.head + 1 = s.cap := by omega
    have hres : Comm.dequeue s =
        ({ cap := s.cap, head := s.head + 1 - s.cap, tail := s.tail,
           buff := s.buff }, Comm.QStatus.rolled, s.head, s.buff s.head) := by
      simp [Comm.dequeue, hroll]
    rw [hres]
    have hzero : s.head + 1 - s.cap = 0 := by omega
    refine ⟨⟨hc, ?_, ht, ?_, ?_, fun i hi => ?_⟩, Or.inr rfl, hh, hval, rfl⟩
    · show s.head + 1 - s.cap < s.cap
      omega
    · show q.length ≤ s.cap
      omega
    · show s.tail = (s.head + 1 - s.cap + q.length) % s.cap
      rw [hzero, htl2, heq]
      simp [Nat.add_mod_left]
    · show s.buff ((s.head + 1 - s.cap + i) % s.cap) = q.getD i 0
      rw [hzero, ← hbuf2 i hi]
      have harg : (0 + i) % s.cap = (s.head + 1 + i) % s.cap := by
        rw [show s.head + 1 + i = s.cap + i from by omega, Nat.add_mod_left,
            Nat.zero_add, Nat.mod_eq_of_lt (show i < s.cap from by omega)]
      rw [harg]
  · have hlt2 : s.head + 1 < s.cap := by omega
    have hres : Comm.dequeue s =
        ({ cap := s.cap, head := s.head + 1, tail := s.tail,
           buff := s.buff }, Comm.QStatus.normal, s.head, s.buff s.head) := by
      simp [Comm.dequeue, hroll]
    rw [hres]
    refine ⟨⟨hc, hlt2, ht, ?_, htl2, hbuf2⟩, Or.inl rfl, hh, hval, rfl⟩
    show q.length ≤ s.cap
    omega

/-- Helper for C10: running any operation sequence that respects the
live-count preconditions, single-threaded from a state coupled to a
reference queue, preserves the coupling, dequeues exactly the reference
FIFO outputs, resolves every rollover as `normal` or `rolled`, accesses
only indices below `cap`, and keeps both counters below `cap` after
every operation. -/
theorem ringRun_spec (ops : List Comm.ROp) :
    ∀ (s : Comm.RingSt) (q : List Nat), Comm.RInv s q →
      Comm.rvalid s.cap q.length ops = true →
      Comm.RInv (Comm.ringRun s ops).st (Comm.absRun q ops).1 ∧
        (Comm.ringRun s ops).st.cap = s.cap ∧
        (Comm.ringRun s ops).outs = (Comm.absRun q ops).2 ∧
        (∀ st ∈ (Comm.ringRun s ops).stats,
          st = Comm.QStatus.normal ∨ st = Comm.QStatus.rolled) ∧
        (∀ i ∈ (Comm.ringRun s ops).idxs, i < s.cap) ∧
        (∀ p ∈ (Comm.ringRun s ops).counters, p.1 < s.cap ∧ p.2 < s.cap) := by
  induction ops with
  | nil =>
    intro s q hinv _
    refine ⟨hinv, rfl, rfl, ?_, ?_, ?_⟩ <;> simp [Comm.ringRun]
  | cons op rest ih =>
    intro s q hinv hv
    cases op with
    | enq x =>
      simp only [Comm.rvalid, Bool.and_eq_true, decide_eq_true_eq] at hv
      obtain ⟨hlt, hv'⟩ := hv
      obtain ⟨hinv', hst, hidx, hcap⟩ := enqueue_step s q x hinv hlt
      have hv'' : Comm.rvalid (Comm.enqueue s x).1.cap (q ++ [x]).length rest = true := by
        rw [hcap]
        simpa [List.length_append] using hv'
      obtain ⟨ih1, ih2, ih3, ih4, ih5, ih6⟩ := ih (Comm.enqueue s x).1 (q ++ [x]) hinv' hv''
      have hhead : (Comm.enqueue s x).1.head < s.cap := by
        rw [← hcap]; exact hinv'.2.1
      have htail : (Comm.enqueue s x).1.tail < s.cap := by
        rw [← hcap]; exact hinv'.2.2.1
      simp only [Comm.ringRun, Comm.absRun]
      refine ⟨ih1, by rw [ih2, hcap], ih3, ?_, ?_, ?_⟩
      · intro st hst'
        rcases List.mem_cons.mp hst' with h | h
        · rw [h]; exact hst
        · exact ih4 st h
      · intro i hi
        rcases List.mem_cons.mp hi with h | h
        · rw [h]; exact hidx
        · rw [← hcap]; exact ih5 i h
      · intro p hp
        rcases List.mem_cons.mp hp with h | h
        · rw [h]; exact ⟨hhead, htail⟩
        · rw [← hcap]; exact ih6 p h
    | deq =>
      simp only [Comm.rvalid, Bool.and_eq_true, decide_eq_true_eq] at hv
      obtain ⟨hpos, hv'⟩ := hv
      match q, hpos with
      | v :: q', _ =>
        obtain ⟨hinv', hst, hidx, hval, hcap⟩ := dequeue_step s q' v hinv
        have hv'' : Comm.rvalid (Comm.dequeue s).1.cap q'.length rest = true := by
          rw [hcap]
          simpa using hv'
        obtain ⟨ih1, ih2, ih3, ih4, ih5, ih6⟩ := ih (Comm.dequeue s).1 q' hinv' hv''
        have hhead : (Comm.dequeue s).1.head < s.cap := by
          rw [← hcap]; exact hinv'.2.1
        have htail : (Comm.dequeue s).1.tail < s.cap := by
          rw [← hcap]; exact hinv'.2.2.1
        simp only [Comm.ringRun, Comm.absRun, List.tail_cons, List.headD_cons]
        refine ⟨ih1, by rw [ih2, hcap], by rw [ih3, hval], ?_, ?_, ?_⟩
        · intro st hst'
          rcases List.mem_cons.mp hst' with h | h
          · rw [h]; exact hst
          · exact ih4 st h
        · intro i hi
          rcases List.mem_cons.mp hi with h | h
          · rw [h]; exact hidx
          · rw [← hcap]; exact ih5 i h
        · intro p hp
          rcases List.mem_cons.mp hp with h | h
          · rw [h]; exact ⟨hhead, htail⟩
          · rw [← hcap]; exact ih6 p h

/-- C10: in every single-threaded execution on a fresh `atomic_queue` of
capacity `cap > 0` in which each `enqueue` runs with fewer than `cap`
live elements and each `dequeue` with at least one, (i) the dequeued
values are exactly the reference FIFO outputs — each `dequeue` returns
the oldest not-yet-dequeued value; (ii) every rollover section resolves
as `normal` or `rolled`, i.e. the spin loop exits at once and every
rollover compare-exchange succeeds (never `wouldSpin` or `casFailed`);
(iii) every buffer access `buff_[i]` uses `i < cap`, never reaching the
second mapping; (iv) both counters are below `cap` after every
operation, and since an operation transiently holds counter value
`i + 1 ≤ cap` for an accessed index `i < cap`, the counters stay within
`[0, cap]` at all times; and (v) by definition of the `rolled` branch, a
successful rollover reduces the counter by exactly `cap`. -/
theorem c10_ring_single_threaded_fifo (cap : Nat) (ops : List Comm.ROp)
    (hcap : 0 < cap) (hv : Comm.rvalid cap 0 ops = true) :
    (Comm.ringRun (Comm.RingSt.init cap) ops).outs = (Comm.absRun [] ops).2 ∧
      (∀ st ∈ (Comm.ringRun (Comm.RingSt.init cap) ops).stats,
        st = Comm.QStatus.normal ∨ st = Comm.QStatus.rolled) ∧
      (∀ i ∈ (Comm.ringRun (Comm.RingSt.init cap) ops).idxs, i < cap) ∧
      (∀ p ∈ (Comm.ringRun (Comm.RingSt.init cap) ops).counters,
        p.1 < cap ∧ p.2 < cap) ∧
      (∀ (s : Comm.RingSt) (x : Nat),
        (Comm.enqueue s x).2.1 = Comm.QStatus.rolled →
          (Comm.enqueue s x).1.tail + s.cap = s.tail + 1) ∧
      (∀ s : Comm.RingSt,
        (Comm.dequeue s).2.1 = Comm.QStatus.rolled →
          (Comm.dequeue s).1.head + s.cap = s.head + 1) := by
  have hinv0 : Comm.RInv (Comm.RingSt.init cap) [] := by
    refine ⟨hcap, hcap, hcap, by simp, by simp [Comm.RingSt.init], by simp⟩
  obtain ⟨_, _, h3, h4, h5, h6⟩ := ringRun_spec ops (Comm.RingSt.init cap) [] hinv0 hv
  refine ⟨h3, h4, h5, h6, ?_, ?_⟩
  · intro s x hst
    by_cases h1 : s.cap ≤ s.tail + 1
    · have : (Comm.enqueue s x).1.tail = s.tail + 1 - s.cap := by
        simp [Comm.enqueue, h1]
      rw [this]; omega
    · exfalso
      have : (Comm.enqueue s x).2.1 = Comm.QStatus.normal := by
        simp [Comm.enqueue, h1]
      rw [this] at hst
      exact Comm.QStatus.noConfusion hst
  · intro s hst
    by_cases h1 : s.cap ≤ s.head + 1
    · have : (Comm.dequeue s).1.head = s.head + 1 - s.cap := by
        simp [Comm.dequeue, h1]
      rw [this]; omega
    · exfalso
      have : (Comm.dequeue s).2.1 = Comm.QStatus.normal := by
        simp [Comm.dequeue, h1]
      rw [this] at hst
      exact Comm.QStatus.noConfusion hst

/-- Witness for C10 at capacity 2 and a run that exercises two
rollovers: enqueue 10, enqueue 20, dequeue, enqueue 30, dequeue,
dequeue. -/
theorem c10_ring_single_threaded_fifo_witness :
    ((0 < 2) ∧ Comm.rvalid 2 0
        [Comm.ROp.enq 10, Comm.ROp.enq 20, Comm.ROp.deq,
         Comm.ROp.enq 30, Comm.ROp.deq, Comm.ROp.deq] = true) ∧
      (Comm.ringRun (Comm.RingSt.init 2)
          [Comm.ROp.enq 10, Comm.ROp.enq 20, Comm.ROp.deq,
           Comm.ROp.enq 30, Comm.ROp.deq, Comm.ROp.deq]).outs =
        (Comm.absRun []
          [Comm.ROp.enq 10, Comm.ROp.enq 20, Comm.ROp.deq,
           Comm.ROp.enq 30, Comm.ROp.deq, Comm.ROp.deq]).2 :=
  ⟨⟨by decide, by decide⟩,
    (c10_ring_single_threaded_fifo 2
      [Comm.ROp.enq 10, Comm.ROp.enq 20, Comm.ROp.deq,
       Comm.ROp.enq 30, Comm.ROp.deq, Comm.ROp.deq]
      (by decide) (by decide)).1⟩
